import Mathlib

/-!
Shallow embedding of the avroschema protoc plugin
(`plugin/avroschema/avroschema.go`): synthesis of an Avro schema from a
protobuf message descriptor, with a per-run type cache (`p.seen`) that
memoizes already-synthesized types so that shared and self-referential
message types are expanded at most once.

Go structures become Lean structures, the `avroField` interface becomes a
closed inductive (the Go `nil` interface value, returned by the classifier
for group fields, is the `nilField` constructor), the mutable `p.seen`
map is threaded as explicit state with Go-map (replace-on-insert)
semantics, and panics / `p.Fail` become an `Err` sum propagated through
`Except`.
-/

namespace Avroschema

/-- Protobuf field type tags (`descriptor.FieldDescriptorProto_Type`).
The protobuf enum is open (an `int32` on the wire), so a constructor for
out-of-range tag values is included; it is what the Go `switch` statements
see in their `default` branches. -/
inductive FieldType where
  | double
  | float
  | int64
  | uint64
  | int32
  | fixed64
  | fixed32
  | bool
  | string
  | group
  | message
  | bytes
  | uint32
  | enum
  | sfixed32
  | sfixed64
  | sint32
  | sint64
  | other (n : Int)
deriving DecidableEq, Repr

/-- One field descriptor as the plugin reads it: `field.GetName()`,
`*field.Type`, `field.GetTypeName()` (fully qualified, e.g. `".pkg.Bar"`,
empty for primitive fields), and `field.IsRepeated()`. -/
structure FieldDescriptorProto where
  name : String
  typ : FieldType
  typeName : String
  isRepeated : Bool
deriving DecidableEq, Repr

/-- One declared enum value (`EnumValueDescriptorProto`); `v.GetName()`. -/
structure EnumValueDescriptorProto where
  name : String
deriving DecidableEq, Repr

/-- An enum declaration (`generator.EnumDescriptor`); `enum.GetValue()`
is the ordered list of declared values. -/
structure EnumDescriptor where
  value : List EnumValueDescriptorProto
deriving DecidableEq, Repr

/-- A message descriptor (`generator.Descriptor`): `message.TypeName()`
(the path of nested message names, `["M"]` for a top-level message),
`message.GetName()`, the ordered field list `message.Field`, and the
opt-in annotation.  `hasAvroSchema` is modelled from the spec: the
external opt-in predicate `gogoproto.HasAvroSchema` lives outside this
plugin and is treated as a per-message boolean. -/
structure Descriptor where
  typeName : List String
  name : String
  field : List FieldDescriptorProto
  hasAvroSchema : Bool
deriving DecidableEq, Repr

/-- The `avroField` interface together with the structs implementing it
(`envelope`, `simpleField`, `complexField`, `arrayField`, `enumField`).
`nilField` is the Go `nil` value of the interface type: `processField`
returns it (with a `nil` error) for group fields, and calling `schema()`
on it panics. -/
inductive AvroField where
  | envelope (name : String) (nameSpace : String) (typ : String) (fields : List AvroField)
  | simpleField (name : String) (typ : String)
  | complexField (fieldName : String) (typeName : String) (fields : List AvroField)
  | arrayField (name : String) (typ : String)
  | enumField (name : String) (typeName : String) (symbols : List String)
  | nilField

/-- Failure modes of one generation run.  In the Go source these are the
`errTypeNotFound` error raised together with `p.Fail` (unknown field
type), the framework failure when `ObjectNamed` cannot resolve an enum
reference, the `panic("Rats! Cache contains type I didn't expect")` in
`getComplexField`, and the runtime panic from calling `schema()` on the
`nil` interface value appended for a group field. -/
inductive Err where
  | unknownFieldType (fieldName : String)
  | enumNotFound (typeName : String)
  | cacheConsistency
  | nilSchemaPanic
deriving DecidableEq, Repr

/-- The type cache `p.seen : map[string]avroField`, threaded as explicit
state.  An association list with replace-on-insert gives the observable
behavior of a Go map. -/
abbrev Cache := List (String × AvroField)

/-- Go map read `p.seen[name]`. -/
def lookupSeen : Cache → String → Option AvroField
  | [], _ => none
  | (k, v) :: rest, n => if k = n then some v else lookupSeen rest n

/-- Go map assignment `p.seen[name] = v`: silently replaces any existing
binding of the same key. -/
def insertSeen : Cache → String → AvroField → Cache
  | [], n, v => [(n, v)]
  | (k, w) :: rest, n, v => if k = n then (n, v) :: rest else (k, w) :: insertSeen rest n v

/-- Modelled from the spec: `generator.CamelCase` is repository code that
lives outside the plugin source.  The spec speaks of names only as opaque
strings (short type names, the field's own name), so name normalization
is modelled as the identity; the concrete names used below are fixed
points of camel-casing. -/
def camelCase (s : String) : String := s

/-- Modelled from the spec: `generator.CamelCaseSlice(message.TypeName())`,
the name under which the Record Assembler registers and names a record;
for a nested message the path components are joined with an underscore. -/
def camelCaseSlice (elems : List String) : String := camelCase (String.intercalate "_" elems)

def lastDotComponentAux : List Char → List Char → List Char
  | [], acc => acc
  | c :: cs, acc => if c = '.' then lastDotComponentAux cs [] else lastDotComponentAux cs (acc ++ [c])

/-- `strings.Split(s, ".")` followed by taking the last element: the
substring after the final dot (the whole string when there is no dot). -/
def lastDotComponent (s : String) : String := ⟨lastDotComponentAux s.data []⟩

/-- The short name computed by `getComplexField`:
`splits := strings.Split(generator.CamelCase(field.GetTypeName()), ".")`,
`typeName := splits[len(splits)-1]`. -/
def shortTypeName (tn : String) : String := lastDotComponent (camelCase tn)

/-- `strings.Join(xs, sep)`. -/
def joinSep (sep : String) : List String → String
  | [] => ""
  | [x] => x
  | x :: xs => x ++ sep ++ joinSep sep xs

/-- Modelled from the spec: `strconv.Quote` of the Go standard library
(an external collaborator).  On the printable-ASCII strings the plugin
handles it wraps the string in double quotes and backslash-escapes
embedded quotes, backslashes and the common control characters. -/
def goQuoteChar (c : Char) : List Char :=
  if c = '"' then ['\\', '"']
  else if c = '\\' then ['\\', '\\']
  else if c = '\n' then ['\\', 'n']
  else if c = '\t' then ['\\', 't']
  else if c = '\r' then ['\\', 'r']
  else [c]

/-- Modelled from the spec: `strconv.Quote s`. -/
def goQuote (s : String) : String :=
  ⟨'"' :: s.data.foldr (fun c acc => goQuoteChar c ++ acc) ['"']⟩

/-- `getAvroTypeForProtobufType`: the Type Mapper.  Total on the open
tag type; every tag outside the fifteen recognized primitives falls into
the `default` branch, which returns the string `"nil"`. -/
def getAvroTypeForProtobufType : FieldType → String
  | .double => "double"
  | .float => "float"
  | .int64 => "long"
  | .uint64 => "long"
  | .int32 => "int"
  | .uint32 => "int"
  | .fixed64 => "long"
  | .fixed32 => "int"
  | .bool => "boolean"
  | .string => "string"
  | .sfixed32 => "int"
  | .sfixed64 => "long"
  | .sint32 => "int"
  | .sint64 => "long"
  | .bytes => "bytes"
  | _ => "nil"

/-- `getSimpleAvroField`: a scalar field node.  `p.GetFieldName` is
repository code outside the plugin source; modelled from the spec as the
field's own name (camel-cased). -/
def getSimpleAvroField (f : FieldDescriptorProto) : Except Err AvroField :=
  .ok (.simpleField (camelCase f.name) (getAvroTypeForProtobufType f.typ))

/-- `getArrayField`: every repeated field, whatever its element type,
becomes an array node whose element type is asked of the Type Mapper. -/
def getArrayField (f : FieldDescriptorProto) : Except Err AvroField :=
  .ok (.arrayField (camelCase f.name) (getAvroTypeForProtobufType f.typ))

/-- `getComplexField`: nested-record resolution against the cache.
Looks up the referenced type's short name; an `envelope` hit is wrapped
(its current field list is snapshotted) into a fresh `complexField`, a
`complexField` hit is returned as-is, any other cached shape panics, and
a miss creates an empty `complexField` registered under the *field's*
(camel-cased) name. -/
def getComplexField (s : Cache) (f : FieldDescriptorProto) : Except Err (AvroField × Cache) :=
  match lookupSeen s (shortTypeName f.typeName) with
  | some (.envelope _ _ _ efields) =>
      .ok (.complexField (camelCase f.name) (shortTypeName f.typeName) efields, s)
  | some (.complexField fn tn fs) => .ok (.complexField fn tn fs, s)
  | some _ => .error .cacheConsistency
  | none =>
      .ok (.complexField (camelCase f.name) (shortTypeName f.typeName) [],
        insertSeen s (camelCase f.name) (.complexField (camelCase f.name) (shortTypeName f.typeName) []))

/-- `p.ObjectNamed(field.GetTypeName()).(*generator.EnumDescriptor)`:
modelled from the spec as resolution in an environment of enum
declarations keyed by fully qualified type name; failure to resolve is
the framework's failure mode, `EnumNotFound`. -/
def lookupEnum : List (String × EnumDescriptor) → String → Option EnumDescriptor
  | [], _ => none
  | (k, v) :: rest, n => if k = n then some v else lookupEnum rest n

/-- `getEnumField`: resolve the enum declaration, collect its value
names in declaration order (the Go `for` loop appending `v.GetName()`),
and build an enum node from the field's raw name and the raw last
dot-component of the type name. -/
def getEnumField (objs : List (String × EnumDescriptor)) (f : FieldDescriptorProto) :
    Except Err AvroField :=
  match lookupEnum objs f.typeName with
  | none => .error (.enumNotFound f.typeName)
  | some enumDesc =>
      let symbols := enumDesc.value.foldl (fun acc v => acc ++ [v.name]) []
      .ok (.enumField f.name (lastDotComponent f.typeName) symbols)

/-- `processField`: the Field Classifier.  Repeated fields take the
array path first; otherwise dispatch on the type tag (fifteen primitive
tags, message, enum, group, and the failing `default`). -/
def processField (objs : List (String × EnumDescriptor)) (s : Cache)
    (f : FieldDescriptorProto) : Except Err (AvroField × Cache) :=
  if f.isRepeated then
    match getArrayField f with
    | .ok a => .ok (a, s)
    | .error e => .error e
  else
    match f.typ with
    | .double | .float | .int64 | .uint64 | .int32 | .uint32 | .fixed64 | .fixed32
    | .bool | .string | .sfixed32 | .sfixed64 | .sint32 | .sint64 | .bytes =>
        match getSimpleAvroField f with
        | .ok a => .ok (a, s)
        | .error e => .error e
    | .message => getComplexField s f
    | .enum =>
        match getEnumField objs f with
        | .ok a => .ok (a, s)
        | .error e => .error e
    | .group => .ok (.nilField, s)
    | .other _ => .error (.unknownFieldType f.name)

/-- The cache holds a *pointer* to the envelope being assembled, so the
Go append `e.fields = append(e.fields, fs)` is visible through the cache
binding of the envelope's key — unless that binding was overwritten
during field processing (by a cache-miss registration under a field name
equal to the key), in which case the mutation is no longer visible
through the map.  Only envelope bindings are ever refreshed. -/
def updateEnvAt (s : Cache) (key : String) (v : AvroField) : Cache :=
  match lookupSeen s key with
  | some (.envelope _ _ _ _) => insertSeen s key v
  | _ => s

/-- The field loop of `processMessage`: classify each field in
declaration order, append the result (the Go code appends even a `nil`
result) and propagate the envelope mutation into the cache. -/
def processFields (objs : List (String × EnumDescriptor)) (key nameSpace : String) :
    List FieldDescriptorProto → Cache → List AvroField → Except Err (List AvroField × Cache)
  | [], s, acc => .ok (acc, s)
  | f :: rest, s, acc =>
    match processField objs s f with
    | .error e => .error e
    | .ok (node, s1) =>
        let acc2 := acc ++ [node]
        processFields objs key nameSpace rest (updateEnvAt s1 key (.envelope key nameSpace "record" acc2)) acc2

/-- `processMessage`: the Record Assembler.  Builds the envelope (name
from `CamelCaseSlice(message.TypeName())`, namespace from the file name),
registers it in the cache under its own name *before* walking the
fields, then assembles the fields in declaration order; a field error is
a panic, modelled as error propagation. -/
def processMessage (objs : List (String × EnumDescriptor)) (nameSpace : String)
    (s : Cache) (m : Descriptor) : Except Err (AvroField × Cache) :=
  match processFields objs (camelCaseSlice m.typeName) nameSpace m.field
      (insertSeen s (camelCaseSlice m.typeName)
        (.envelope (camelCaseSlice m.typeName) nameSpace "record" [])) [] with
  | .error e => .error e
  | .ok (nodes, s1) => .ok (.envelope (camelCaseSlice m.typeName) nameSpace "record" nodes, s1)

mutual

/-- The `schema()` methods: each `avroField` variant renders via its own
fixed textual template (the `fmt.Sprintf` format strings of the source,
verbatim).  Only enum symbols pass through `strconv.Quote`; every other
embedded string is interpolated by `%s` as-is.  Calling `schema()` on
the `nil` interface value is a runtime panic, modelled as `none`. -/
def schema : AvroField → Option String
  | .envelope name nameSpace _ fields =>
      match schemaList fields with
      | none => none
      | some ss =>
          some ("\x7b\"name\": \"" ++ name ++ "\", \"type\": \"record\", \"namespace\": \"" ++
            nameSpace ++ "\", \"fields\": [ " ++ joinSep ", " ss ++ " ]\x7d")
  | .simpleField name typ =>
      some ("\x7b\"name\": \"" ++ name ++ "\", \"type\": \"" ++ typ ++ "\"\x7d")
  | .complexField fieldName typeName fields =>
      match schemaList fields with
      | none => none
      | some ss =>
          some ("\x7b\"name\": \"" ++ fieldName ++ "\", \"type\": \x7b \"name\": \"" ++
            typeName ++ "\", \"type\": \"record\", \"fields\": [ " ++ joinSep ", " ss ++ " ] \x7d\x7d")
  | .arrayField name typ =>
      some ("\x7b\"name\": \"" ++ name ++ "\", \"type\": \x7b\"type\": \"array\", \"items\": \"" ++
        typ ++ "\"\x7d\x7d")
  | .enumField name typeName symbols =>
      some ("\x7b\"name\": \"" ++ name ++ "\", \"type\": \x7b\"type\": \"enum\", \"name\": \"" ++
        typeName ++ "\", \"symbols\": [ " ++ joinSep ", " (symbols.map goQuote) ++ " ]\x7d\x7d")
  | .nilField => none

/-- The `schema()` loops over child field lists. -/
def schemaList : List AvroField → Option (List String)
  | [] => some []
  | f :: fs =>
      match schema f, schemaList fs with
      | some s, some ss => some (s :: ss)
      | _, _ => none

end

/-- `Generate` together with `createMessageStub`: the Message Walker.
For each declared message, in order, test the opt-in annotation; if
present, assemble the record and render its schema string (the rendered
pair is what is handed to the external code emitter).  The cache is the
one created empty at `Init`. -/
def generate (objs : List (String × EnumDescriptor)) (nameSpace : String) :
    List Descriptor → Cache → Except Err (List (String × String) × Cache)
  | [], s => .ok ([], s)
  | m :: rest, s =>
    if m.hasAvroSchema then
      match processMessage objs nameSpace s m with
      | .error e => .error e
      | .ok (e, s1) =>
          match schema e with
          | none => .error .nilSchemaPanic
          | some str =>
              match generate objs nameSpace rest s1 with
              | .error e2 => .error e2
              | .ok (out, s2) => .ok ((m.name, str) :: out, s2)
    else generate objs nameSpace rest s

/-- The fifteen primitive type tags recognized by the `switch` in
`processField` (and mapped by the Type Mapper). -/
def primTag : FieldType → Bool
  | .double | .float | .int64 | .uint64 | .int32 | .uint32 | .fixed64 | .fixed32
  | .bool | .string | .sfixed32 | .sfixed64 | .sint32 | .sint64 | .bytes => true
  | _ => false

/-- A field whose classification neither consults nor modifies the type
cache: a repeated field (always the array path) or a recognized
primitive scalar. -/
def plainField (f : FieldDescriptorProto) : Bool := f.isRepeated || primTag f.typ

/-- The node such a field classifies to. -/
def plainNode (f : FieldDescriptorProto) : AvroField :=
  if f.isRepeated then .arrayField (camelCase f.name) (getAvroTypeForProtobufType f.typ)
  else .simpleField (camelCase f.name) (getAvroTypeForProtobufType f.typ)

/-- The two cache shapes `getComplexField` expects: a full record
(`envelope`) or a nested record (`complexField`). -/
def isRecordShaped : AvroField → Bool
  | .envelope _ _ _ _ => true
  | .complexField _ _ _ => true
  | _ => false

/-- Every value stored in the cache is an envelope or a complex field. -/
def WellShaped (s : Cache) : Prop := ∀ kv ∈ s, isRecordShaped kv.2 = true

/-- Whether a run ended in the internal-consistency panic of
`getComplexField` (`"Rats! Cache contains type I didn't expect"`). -/
def isCacheConsistencyFailure : Except Err (List (String × String) × Cache) → Bool
  | .error .cacheConsistency => true
  | _ => false

theorem lookupSeen_insertSeen_self (s : Cache) (k : String) (v : AvroField) :
    lookupSeen (insertSeen s k v) k = some v := by
  induction s with
  | nil => simp [insertSeen, lookupSeen]
  | cons hd tl ih =>
      obtain ⟨k', v'⟩ := hd
      by_cases h : k' = k <;> simp [insertSeen, lookupSeen, h, ih]

theorem lookupSeen_insertSeen_ne (s : Cache) (k k' : String) (v : AvroField) (h : k ≠ k') :
    lookupSeen (insertSeen s k v) k' = lookupSeen s k' := by
  induction s with
  | nil => simp [insertSeen, lookupSeen, h]
  | cons hd tl ih =>
      obtain ⟨k'', v''⟩ := hd
      by_cases h2 : k'' = k <;> simp [insertSeen, lookupSeen, h, h2, ih]

theorem lookupSeen_mem {s : Cache} {k : String} {v : AvroField}
    (h : lookupSeen s k = some v) : (k, v) ∈ s := by
  induction s with
  | nil => simp [lookupSeen] at h
  | cons hd tl ih =>
      obtain ⟨k', v'⟩ := hd
      simp only [lookupSeen] at h
      split at h
      · next heq =>
          obtain rfl := heq
          simp only [Option.some.injEq] at h
          subst h
          exact List.mem_cons_self _ _
      · exact List.mem_cons_of_mem _ (ih h)

theorem mem_insertSeen {s : Cache} {k : String} {v : AvroField} {kv : String × AvroField}
    (h : kv ∈ insertSeen s k v) : kv = (k, v) ∨ kv ∈ s := by
  induction s with
  | nil => simpa [insertSeen] using h
  | cons hd tl ih =>
      obtain ⟨k', v'⟩ := hd
      by_cases h2 : k' = k
      · simp only [insertSeen, if_pos h2] at h
        rcases List.mem_cons.mp h with h3 | h3
        · exact Or.inl h3
        · exact Or.inr (List.mem_cons_of_mem _ h3)
      · simp only [insertSeen, if_neg h2] at h
        rcases List.mem_cons.mp h with h3 | h3
        · exact Or.inr (h3 ▸ List.mem_cons_self _ _)
        · rcases ih h3 with h4 | h4
          · exact Or.inl h4
          · exact Or.inr (List.mem_cons_of_mem _ h4)

theorem wellShaped_insertSeen {s : Cache} {k : String} {v : AvroField}
    (hs : WellShaped s) (hv : isRecordShaped v = true) : WellShaped (insertSeen s k v) := by
  intro kv hkv
  rcases mem_insertSeen hkv with h | h
  · subst h; exact hv
  · exact hs kv h

theorem wellShaped_updateEnvAt {s : Cache} {key : String} {v : AvroField}
    (hs : WellShaped s) (hv : isRecordShaped v = true) : WellShaped (updateEnvAt s key v) := by
  unfold updateEnvAt
  split
  · exact wellShaped_insertSeen hs hv
  · exact hs

theorem getComplexField_wellShaped {s : Cache} {f : FieldDescriptorProto}
    (hs : WellShaped s) :
    ∃ node s', getComplexField s f = .ok (node, s') ∧ WellShaped s' := by
  cases h : lookupSeen s (shortTypeName f.typeName) with
  | none =>
      refine ⟨.complexField (camelCase f.name) (shortTypeName f.typeName) [],
        insertSeen s (camelCase f.name)
          (.complexField (camelCase f.name) (shortTypeName f.typeName) []), ?_, ?_⟩
      · simp only [getComplexField]
        rw [h]
      · exact wellShaped_insertSeen hs (by rfl)
  | some v =>
      have hv := hs _ (lookupSeen_mem h)
      cases v with
      | envelope n nsp t fs =>
          refine ⟨.complexField (camelCase f.name) (shortTypeName f.typeName) fs, s, ?_, hs⟩
          simp only [getComplexField]
          rw [h]
      | complexField fn tn fs =>
          refine ⟨.complexField fn tn fs, s, ?_, hs⟩
          simp only [getComplexField]
          rw [h]
      | simpleField n t => simp [isRecordShaped] at hv
      | arrayField n t => simp [isRecordShaped] at hv
      | enumField n tn sy => simp [isRecordShaped] at hv
      | nilField => simp [isRecordShaped] at hv

theorem processField_shape {objs : List (String × EnumDescriptor)} {s : Cache}
    {f : FieldDescriptorProto} (hs : WellShaped s) :
    processField objs s f ≠ .error .cacheConsistency ∧
      ∀ n s', processField objs s f = .ok (n, s') → WellShaped s' := by
  unfold processField
  cases hrep : f.isRepeated with
  | true =>
      refine ⟨by simp [getArrayField], ?_⟩
      intro n s' h
      simp [getArrayField] at h
      obtain ⟨-, rfl⟩ := h
      exact hs
  | false =>
      cases htyp : f.typ
      case message =>
        obtain ⟨node, s2, hg, hw⟩ := @getComplexField_wellShaped s f hs
        rw [hg]
        refine ⟨by simp, ?_⟩
        intro n s' h
        simp at h
        obtain ⟨-, rfl⟩ := h
        exact hw
      case enum =>
        unfold getEnumField
        cases he : lookupEnum objs f.typeName with
        | none => exact ⟨by simp, by intro n s' h; simp at h⟩
        | some ed =>
            refine ⟨by simp, ?_⟩
            intro n s' h
            simp at h
            obtain ⟨-, rfl⟩ := h
            exact hs
      case group =>
        refine ⟨by simp, ?_⟩
        intro n s' h
        simp at h
        obtain ⟨-, rfl⟩ := h
        exact hs
      case other k => exact ⟨by simp, by intro n s' h; simp at h⟩
      all_goals
        refine ⟨by simp [getSimpleAvroField], ?_⟩
      all_goals
        intro n s' h
      all_goals
        simp [getSimpleAvroField] at h
      all_goals
        obtain ⟨-, rfl⟩ := h
      all_goals
        exact hs

theorem processFields_shape {objs : List (String × EnumDescriptor)} {key ns : String}
    (fs : List FieldDescriptorProto) :
    ∀ (s : Cache) (acc : List AvroField), WellShaped s →
      processFields objs key ns fs s acc ≠ .error .cacheConsistency ∧
        ∀ res s', processFields objs key ns fs s acc = .ok (res, s') → WellShaped s' := by
  induction fs with
  | nil =>
      intro s acc hs
      refine ⟨by simp [processFields], ?_⟩
      intro res s' h
      simp [processFields] at h
      obtain ⟨-, rfl⟩ := h
      exact hs
  | cons f rest ih =>
      intro s acc hs
      obtain ⟨hne, hok⟩ := @processField_shape objs s f hs
      unfold processFields
      cases hpf : processField objs s f with
      | error e =>
          refine ⟨?_, by intro res s' h; simp at h⟩
          intro hc
          injection hc with h
          subst h
          exact hne hpf
      | ok p =>
          obtain ⟨node, s1⟩ := p
          have hs1 : WellShaped s1 := hok node s1 hpf
          exact ih _ _ (wellShaped_updateEnvAt hs1 rfl)

theorem processMessage_shape {objs : List (String × EnumDescriptor)} {ns : String}
    {s : Cache} {m : Descriptor} (hs : WellShaped s) :
    processMessage objs ns s m ≠ .error .cacheConsistency ∧
      ∀ e s', processMessage objs ns s m = .ok (e, s') → WellShaped s' := by
  have hs0 : WellShaped (insertSeen s (camelCaseSlice m.typeName)
      (.envelope (camelCaseSlice m.typeName) ns "record" [])) :=
    wellShaped_insertSeen hs (by rfl)
  obtain ⟨hne, hok⟩ := @processFields_shape objs (camelCaseSlice m.typeName) ns m.field _ [] hs0
  constructor
  · intro hc
    unfold processMessage at hc
    split at hc
    · next e heq =>
        injection hc with h
        subst h
        exact hne heq
    · next nodes s1 heq => simp at hc
  · intro e' s' h
    unfold processMessage at h
    split at h
    · next e heq => simp at h
    · next nodes s1 heq =>
        simp only [Except.ok.injEq, Prod.mk.injEq] at h
        obtain ⟨-, rfl⟩ := h
        exact hok _ _ heq

theorem generate_shape {objs : List (String × EnumDescriptor)} {nameSpace : String}
    (msgs : List Descriptor) :
    ∀ s : Cache, WellShaped s →
      generate objs nameSpace msgs s ≠ .error .cacheConsistency := by
  induction msgs with
  | nil => intro s hs h; simp [generate] at h
  | cons m rest ih =>
      intro s hs
      unfold generate
      cases hm : m.hasAvroSchema with
      | false =>
          simp only [hm, Bool.false_eq_true, if_false]
          exact ih s hs
      | true =>
          simp only [hm, if_true]
          obtain ⟨hne, hok⟩ := @processMessage_shape objs nameSpace s m hs
          intro hc
          split at hc
          · next e heq =>
              injection hc with h
              subst h
              exact hne heq
          · next e s1 heq =>
              have hs1 := hok e s1 heq
              split at hc
              · simp at hc
              · next str heq2 =>
                  split at hc
                  · next e2 heq3 =>
                      injection hc with h
                      subst h
                      exact ih s1 hs1 heq3
                  · next q heq3 => simp at hc

theorem processFields_append {objs : List (String × EnumDescriptor)} {key ns : String}
    (xs ys : List FieldDescriptorProto) :
    ∀ (s : Cache) (acc : List AvroField),
      processFields objs key ns (xs ++ ys) s acc =
        match processFields objs key ns xs s acc with
        | .error e => .error e
        | .ok (acc', s') => processFields objs key ns ys s' acc' := by
  induction xs with
  | nil => intro s acc; simp [processFields]
  | cons f rest ih =>
      intro s acc
      simp only [List.cons_append, processFields]
      cases processField objs s f with
      | error e => rfl
      | ok p =>
          obtain ⟨node, s1⟩ := p
          exact ih _ _

theorem processField_plain {objs : List (String × EnumDescriptor)} {s : Cache}
    {f : FieldDescriptorProto} (h : plainField f = true) :
    processField objs s f = .ok (plainNode f, s) := by
  unfold processField plainNode
  cases hrep : f.isRepeated with
  | true => simp [getArrayField]
  | false =>
      rw [plainField, hrep] at h
      simp only [Bool.false_or] at h
      cases htyp : f.typ <;> simp_all [primTag, getSimpleAvroField]

theorem processFields_plain {objs : List (String × EnumDescriptor)} {key ns : String}
    (fs : List FieldDescriptorProto) :
    ∀ (s : Cache) (acc : List AvroField),
      (∀ g ∈ fs, plainField g = true) →
      lookupSeen s key = some (.envelope key ns "record" acc) →
      ∃ s', processFields objs key ns fs s acc = .ok (acc ++ fs.map plainNode, s') ∧
        lookupSeen s' key = some (.envelope key ns "record" (acc ++ fs.map plainNode)) := by
  induction fs with
  | nil =>
      intro s acc _ hl
      exact ⟨s, by simp [processFields], by simpa using hl⟩
  | cons f rest ih =>
      intro s acc hall hl
      have hf := hall f (List.mem_cons_self _ _)
      have hrest : ∀ g ∈ rest, plainField g = true := fun g hg => hall g (List.mem_cons_of_mem _ hg)
      have hupd : updateEnvAt s key (.envelope key ns "record" (acc ++ [plainNode f])) =
          insertSeen s key (.envelope key ns "record" (acc ++ [plainNode f])) := by
        unfold updateEnvAt
        rw [hl]
      obtain ⟨s', h1, h2⟩ := ih (insertSeen s key (.envelope key ns "record" (acc ++ [plainNode f])))
        (acc ++ [plainNode f]) hrest (lookupSeen_insertSeen_self _ _ _)
      refine ⟨s', ?_, ?_⟩
      · simp only [processFields, processField_plain hf, hupd]
        rw [h1]
        simp
      · simpa using h2

theorem processFields_ok_shape {objs : List (String × EnumDescriptor)} {key ns : String}
    (fs : List FieldDescriptorProto) :
    ∀ (s : Cache) (acc res : List AvroField) (s' : Cache),
      processFields objs key ns fs s acc = .ok (res, s') →
      ∃ tail, res = acc ++ tail ∧ tail.length = fs.length := by
  induction fs with
  | nil =>
      intro s acc res s' h
      simp [processFields] at h
      exact ⟨[], by simp [h.1], rfl⟩
  | cons f rest ih =>
      intro s acc res s' h
      simp only [processFields] at h
      cases hpf : processField objs s f with
      | error e => rw [hpf] at h; simp at h
      | ok p =>
          obtain ⟨node, s1⟩ := p
          rw [hpf] at h
          obtain ⟨tail, htail, hlen⟩ := ih _ _ _ _ h
          exact ⟨node :: tail, by simp [htail], by simp [hlen]⟩

theorem processMessage_selfref_core {objs : List (String × EnumDescriptor)} {ns : String}
    {s : Cache} {m : Descriptor} {pre post : List FieldDescriptorProto}
    {f : FieldDescriptorProto}
    (hsplit : m.field = pre ++ f :: post)
    (hpre : ∀ g ∈ pre, plainField g = true)
    (hf : f.isRepeated = false) (hft : f.typ = .message)
    (hself : shortTypeName f.typeName = camelCaseSlice m.typeName) :
    ∃ s2,
      lookupSeen s2 (camelCaseSlice m.typeName) =
        some (.envelope (camelCaseSlice m.typeName) ns "record"
          (pre.map plainNode ++
            [.complexField (camelCase f.name) (camelCaseSlice m.typeName) (pre.map plainNode)])) ∧
      processMessage objs ns s m =
        match processFields objs (camelCaseSlice m.typeName) ns post s2
            (pre.map plainNode ++
              [.complexField (camelCase f.name) (camelCaseSlice m.typeName) (pre.map plainNode)]) with
        | .error e => .error e
        | .ok (nodes, s1) =>
            .ok (.envelope (camelCaseSlice m.typeName) ns "record" nodes, s1) := by
  have hl0 : lookupSeen (insertSeen s (camelCaseSlice m.typeName)
      (.envelope (camelCaseSlice m.typeName) ns "record" [])) (camelCaseSlice m.typeName) =
      some (.envelope (camelCaseSlice m.typeName) ns "record" []) :=
    lookupSeen_insertSeen_self _ _ _
  obtain ⟨s1, hpre_run, hl1⟩ := @processFields_plain objs (camelCaseSlice m.typeName) ns pre _ [] hpre hl0
  simp only [List.nil_append] at hpre_run hl1
  have hpf : processField objs s1 f =
      .ok (.complexField (camelCase f.name) (camelCaseSlice m.typeName) (pre.map plainNode), s1) := by
    unfold processField
    rw [hf]
    simp only [Bool.false_eq_true, if_false]
    rw [hft]
    simp only [getComplexField]
    rw [hself, hl1]
  have hupd : updateEnvAt s1 (camelCaseSlice m.typeName)
      (.envelope (camelCaseSlice m.typeName) ns "record"
        (pre.map plainNode ++
          [.complexField (camelCase f.name) (camelCaseSlice m.typeName) (pre.map plainNode)])) =
      insertSeen s1 (camelCaseSlice m.typeName)
        (.envelope (camelCaseSlice m.typeName) ns "record"
          (pre.map plainNode ++
            [.complexField (camelCase f.name) (camelCaseSlice m.typeName) (pre.map plainNode)])) := by
    unfold updateEnvAt
    rw [hl1]
  refine ⟨insertSeen s1 (camelCaseSlice m.typeName)
    (.envelope (camelCaseSlice m.typeName) ns "record"
      (pre.map plainNode ++
        [.complexField (camelCase f.name) (camelCaseSlice m.typeName) (pre.map plainNode)])),
    lookupSeen_insertSeen_self _ _ _, ?_⟩
  unfold processMessage
  rw [hsplit, processFields_append, hpre_run]
  simp only [processFields]
  rw [hpf]
  simp only [hupd]

/-- C1: for a message whose field list contains, at any position, a
non-repeated message-typed field referencing the message's own registered
name (a self-reference), with the surrounding fields cache-neutral
(repeated or recognized primitive), `processMessage` terminates with a
result: the self-referential field yields a `complexField` (NestedRecord)
reference whose child fields are read from the cache entry registered
before field traversal — the referenced type is not re-traversed. -/
theorem c1_selfReferential_terminates {objs : List (String × EnumDescriptor)} {ns : String}
    {s : Cache} {m : Descriptor} {pre post : List FieldDescriptorProto}
    {f : FieldDescriptorProto}
    (hsplit : m.field = pre ++ f :: post)
    (hpre : ∀ g ∈ pre, plainField g = true)
    (hpost : ∀ g ∈ post, plainField g = true)
    (hf : f.isRepeated = false) (hft : f.typ = .message)
    (hself : shortTypeName f.typeName = camelCaseSlice m.typeName) :
    ∃ s', processMessage objs ns s m =
      .ok (.envelope (camelCaseSlice m.typeName) ns "record"
        (pre.map plainNode ++
          .complexField (camelCase f.name) (camelCaseSlice m.typeName) (pre.map plainNode) ::
            post.map plainNode), s') := by
  obtain ⟨s2, hl2, hrun⟩ := processMessage_selfref_core hsplit hpre hf hft hself
  obtain ⟨s', hpost_run, -⟩ := @processFields_plain objs (camelCaseSlice m.typeName) ns post s2 _ hpost hl2
  refine ⟨s', ?_⟩
  rw [hrun, hpost_run]
  simp [List.append_assoc]

/-- Witness for C1: a concrete message `M` with one field `next`
referencing its own type resolves to a nested-record reference. -/
theorem c1_selfReferential_terminates_witness :
    ∃ s', processMessage [] "ns" []
        (⟨["M"], "M", [⟨"next", .message, ".pkg.M", false⟩], true⟩ : Descriptor) =
      .ok (.envelope "M" "ns" "record" [.complexField "next" "M" []], s') :=
  @c1_selfReferential_terminates [] "ns" []
    ⟨["M"], "M", [⟨"next", .message, ".pkg.M", false⟩], true⟩
    [] [] ⟨"next", .message, ".pkg.M", false⟩
    rfl (by simp) (by simp) rfl rfl rfl

/-- C9: when the field at position `i` references the record still under
assembly, the nested reference snapshots exactly the nodes synthesized
for positions `0..i-1`; the envelope itself goes on to hold one node per
remaining field, but none of them appears inside the snapshot. -/
theorem c9_midAssembly_snapshot {objs : List (String × EnumDescriptor)} {ns : String}
    {s : Cache} {m : Descriptor} {pre post : List FieldDescriptorProto}
    {f : FieldDescriptorProto} {e : AvroField} {s' : Cache}
    (hsplit : m.field = pre ++ f :: post)
    (hpre : ∀ g ∈ pre, plainField g = true)
    (hf : f.isRepeated = false) (hft : f.typ = .message)
    (hself : shortTypeName f.typeName = camelCaseSlice m.typeName)
    (hrun : processMessage objs ns s m = .ok (e, s')) :
    ∃ rest, e = .envelope (camelCaseSlice m.typeName) ns "record"
        (pre.map plainNode ++
          .complexField (camelCase f.name) (camelCaseSlice m.typeName) (pre.map plainNode) ::
            rest) ∧
      rest.length = post.length := by
  obtain ⟨s2, hl2, hcore⟩ := processMessage_selfref_core hsplit hpre hf hft hself
  rw [hcore] at hrun
  split at hrun
  · simp at hrun
  · next nodes s1 heq =>
      simp only [Except.ok.injEq, Prod.mk.injEq] at hrun
      obtain ⟨he, -⟩ := hrun
      obtain ⟨tail, htail, hlen⟩ := @processFields_ok_shape objs (camelCaseSlice m.typeName) ns post _ _ _ _ heq
      refine ⟨tail, ?_, hlen⟩
      rw [← he, htail]
      simp [List.append_assoc]

/-- Witness for C9: in message `N` with a self-referential first field
and one primitive field after it, the nested reference holds the empty
snapshot while the envelope holds both nodes. -/
theorem c9_midAssembly_snapshot_witness :
    ∃ rest, (AvroField.envelope "N" "ns" "record"
        [.complexField "next" "N" [], .simpleField "tag" "string"]) =
      .envelope "N" "ns" "record" ([] ++ .complexField "next" "N" [] :: rest) ∧
      rest.length = 1 :=
  @c9_midAssembly_snapshot [] "ns" []
    ⟨["N"], "N", [⟨"next", .message, ".q.N", false⟩, ⟨"tag", .string, "", false⟩], true⟩
    [] [⟨"tag", .string, "", false⟩] ⟨"next", .message, ".q.N", false⟩
    (.envelope "N" "ns" "record" [.complexField "next" "N" [], .simpleField "tag" "string"])
    [("N", .envelope "N" "ns" "record"
      [.complexField "next" "N" [], .simpleField "tag" "string"])]
    rfl (by simp) rfl rfl rfl rfl

/-- C2 counterexample: two sibling messages `M1` and `M2` whose fields
`foo` and `baz` both reference the third type `.p.Bar`.  The first
resolution registers its node under the field name `foo`, not under the
type name `Bar`, so the second sibling's lookup of `Bar` misses and a
second, distinct node is created; no shared entry under `Bar` ever
exists. -/
theorem c2_counterexample :
    processMessage [] "ns" []
        (⟨["M1"], "M1", [⟨"foo", .message, ".p.Bar", false⟩], true⟩ : Descriptor) =
      .ok (.envelope "M1" "ns" "record" [.complexField "foo" "Bar" []],
        [("M1", .envelope "M1" "ns" "record" [.complexField "foo" "Bar" []]),
         ("foo", .complexField "foo" "Bar" [])]) ∧
    lookupSeen [("M1", .envelope "M1" "ns" "record" [.complexField "foo" "Bar" []]),
        ("foo", .complexField "foo" "Bar" [])] "Bar" = none ∧
    processMessage [] "ns"
        [("M1", .envelope "M1" "ns" "record" [.complexField "foo" "Bar" []]),
         ("foo", .complexField "foo" "Bar" [])]
        (⟨["M2"], "M2", [⟨"baz", .message, ".p.Bar", false⟩], true⟩ : Descriptor) =
      .ok (.envelope "M2" "ns" "record" [.complexField "baz" "Bar" []],
        [("M1", .envelope "M1" "ns" "record" [.complexField "foo" "Bar" []]),
         ("foo", .complexField "foo" "Bar" []),
         ("M2", .envelope "M2" "ns" "record" [.complexField "baz" "Bar" []]),
         ("baz", .complexField "baz" "Bar" [])]) ∧
    lookupSeen [("M1", .envelope "M1" "ns" "record" [.complexField "foo" "Bar" []]),
        ("foo", .complexField "foo" "Bar" []),
        ("M2", .envelope "M2" "ns" "record" [.complexField "baz" "Bar" []]),
        ("baz", .complexField "baz" "Bar" [])] "Bar" = none ∧
    (AvroField.complexField "baz" "Bar" [] ≠ AvroField.complexField "foo" "Bar" []) := by
  refine ⟨rfl, rfl, rfl, rfl, ?_⟩
  intro h
  injection h with h1 h2 h3
  exact absurd h1 (by decide)

/-- C2 amended: sibling reuse of a cache entry happens only when the
first field's (camel-cased) name coincides with the referenced type's
short name — the miss path registers under the field's name while
lookups use the type's short name.  When they coincide, the second
resolution returns the very node created by the first, unchanged and
without touching the cache. -/
theorem c2_amended_sharedCacheEntry {s : Cache} {f1 f2 : FieldDescriptorProto}
    {node : AvroField} {s' : Cache}
    (hsame : shortTypeName f2.typeName = shortTypeName f1.typeName)
    (hname : camelCase f1.name = shortTypeName f1.typeName)
    (hmiss : lookupSeen s (shortTypeName f1.typeName) = none)
    (hrun : getComplexField s f1 = .ok (node, s')) :
    getComplexField s' f2 = .ok (node, s') := by
  unfold getComplexField at hrun
  rw [hmiss] at hrun
  simp only [Except.ok.injEq, Prod.mk.injEq] at hrun
  obtain ⟨hnode, hs'⟩ := hrun
  subst hnode
  subst hs'
  unfold getComplexField
  have hl : lookupSeen (insertSeen s (camelCase f1.name)
        (.complexField (camelCase f1.name) (shortTypeName f1.typeName) []))
      (shortTypeName f2.typeName) =
      some (.complexField (camelCase f1.name) (shortTypeName f1.typeName) []) := by
    rw [hsame, ← hname]
    exact lookupSeen_insertSeen_self _ _ _
  rw [hl]

/-- Witness for the amended C2: a first field literally named `Bar`
referencing `.p.Bar` seeds the cache; a second field referencing
`.q.Bar` then reuses that very node. -/
theorem c2_amended_sharedCacheEntry_witness :
    getComplexField [("Bar", .complexField "Bar" "Bar" [])]
        (⟨"other", .message, ".q.Bar", false⟩ : FieldDescriptorProto) =
      .ok (.complexField "Bar" "Bar" [], [("Bar", .complexField "Bar" "Bar" [])]) :=
  @c2_amended_sharedCacheEntry [] ⟨"Bar", .message, ".p.Bar", false⟩
    ⟨"other", .message, ".q.Bar", false⟩
    (.complexField "Bar" "Bar" []) [("Bar", .complexField "Bar" "Bar" [])] rfl rfl rfl rfl

/-- C3: the Type Mapper is a total function realizing exactly the
documented mapping on the fifteen recognized primitive tags. -/
theorem c3_typeMapper_mapping :
    getAvroTypeForProtobufType .int64 = "long" ∧
    getAvroTypeForProtobufType .uint64 = "long" ∧
    getAvroTypeForProtobufType .fixed64 = "long" ∧
    getAvroTypeForProtobufType .sfixed64 = "long" ∧
    getAvroTypeForProtobufType .sint64 = "long" ∧
    getAvroTypeForProtobufType .int32 = "int" ∧
    getAvroTypeForProtobufType .uint32 = "int" ∧
    getAvroTypeForProtobufType .fixed32 = "int" ∧
    getAvroTypeForProtobufType .sfixed32 = "int" ∧
    getAvroTypeForProtobufType .sint32 = "int" ∧
    getAvroTypeForProtobufType .double = "double" ∧
    getAvroTypeForProtobufType .float = "float" ∧
    getAvroTypeForProtobufType .bool = "boolean" ∧
    getAvroTypeForProtobufType .string = "string" ∧
    getAvroTypeForProtobufType .bytes = "bytes" :=
  ⟨rfl, rfl, rfl, rfl, rfl, rfl, rfl, rfl, rfl, rfl, rfl, rfl, rfl, rfl, rfl⟩

/-- C4 counterexample: on a tag outside the recognized set the Type
Mapper returns the ordinary string `"nil"`, not a failure, and a
repeated field with an unrecognized element tag is classified
successfully into an array node carrying `"nil"` — nothing aborts. -/
theorem c4_counterexample :
    getAvroTypeForProtobufType (.other 99) = "nil" ∧
    getAvroTypeForProtobufType .message = "nil" ∧
    processField [] [] (⟨"f", .message, ".p.B", true⟩ : FieldDescriptorProto) =
      .ok (.arrayField "f" "nil", []) :=
  ⟨rfl, rfl, rfl⟩

/-- C4 amended: for every tag outside the recognized fixed set the Type
Mapper totally returns the sentinel string `"nil"` and raises no
failure; the abort for an unrecognized tag on a non-repeated field comes
from the Field Classifier's default branch (unknown field type), while
the repeated path passes the sentinel into an array node unchecked. -/
theorem c4_amended_unrecognizedTags (n : Int) (objs : List (String × EnumDescriptor))
    (s : Cache) (name tn : String) :
    getAvroTypeForProtobufType (.other n) = "nil" ∧
    getAvroTypeForProtobufType .message = "nil" ∧
    getAvroTypeForProtobufType .enum = "nil" ∧
    getAvroTypeForProtobufType .group = "nil" ∧
    processField objs s (⟨name, .other n, tn, false⟩ : FieldDescriptorProto) =
      .error (.unknownFieldType name) ∧
    processField objs s (⟨name, .other n, tn, true⟩ : FieldDescriptorProto) =
      .ok (.arrayField (camelCase name) "nil", s) :=
  ⟨rfl, rfl, rfl, rfl, rfl, rfl⟩

/-- C5 (code bug): the classifier reports the group field as no node and
no error, but `processMessage` appends that nil result unconditionally,
so the record's field list gains an entry for the group field and
rendering the schema hits the nil node (a runtime panic, modelled as
`none`), aborting the run. -/
theorem c5_groupField_nilAppended :
    processMessage [] "ns" []
        (⟨["M"], "M", [⟨"a", .int64, "", false⟩, ⟨"g", .group, "", false⟩], true⟩ : Descriptor) =
      .ok (.envelope "M" "ns" "record" [.simpleField "a" "long", .nilField],
        [("M", .envelope "M" "ns" "record" [.simpleField "a" "long", .nilField])]) ∧
    processField [] [] (⟨"g", .group, "", false⟩ : FieldDescriptorProto) =
      .ok (.nilField, []) ∧
    schema (.envelope "M" "ns" "record" [.simpleField "a" "long", .nilField]) = none ∧
    generate [] "ns"
        [⟨["M"], "M", [⟨"a", .int64, "", false⟩, ⟨"g", .group, "", false⟩], true⟩] [] =
      .error .nilSchemaPanic :=
  ⟨rfl, rfl, rfl, rfl⟩

/-- C6 counterexample: a run in which a second insert under the name
`Bar` (an envelope, after a complex field was registered there) simply
succeeds and replaces the entry — no programming-error condition is
reported. -/
theorem c6_counterexample :
    processMessage [] "ns" []
        (⟨["M1"], "M1", [⟨"Bar", .message, ".p.Missing", false⟩], true⟩ : Descriptor) =
      .ok (.envelope "M1" "ns" "record" [.complexField "Bar" "Missing" []],
        [("M1", .envelope "M1" "ns" "record" [.complexField "Bar" "Missing" []]),
         ("Bar", .complexField "Bar" "Missing" [])]) ∧
    lookupSeen [("M1", .envelope "M1" "ns" "record" [.complexField "Bar" "Missing" []]),
        ("Bar", .complexField "Bar" "Missing" [])] "Bar" =
      some (.complexField "Bar" "Missing" []) ∧
    processMessage [] "ns"
        [("M1", .envelope "M1" "ns" "record" [.complexField "Bar" "Missing" []]),
         ("Bar", .complexField "Bar" "Missing" [])]
        (⟨["Bar"], "Bar", [], true⟩ : Descriptor) =
      .ok (.envelope "Bar" "ns" "record" [],
        [("M1", .envelope "M1" "ns" "record" [.complexField "Bar" "Missing" []]),
         ("Bar", .envelope "Bar" "ns" "record" [])]) ∧
    lookupSeen [("M1", .envelope "M1" "ns" "record" [.complexField "Bar" "Missing" []]),
        ("Bar", .envelope "Bar" "ns" "record" [])] "Bar" =
      some (.envelope "Bar" "ns" "record" []) :=
  ⟨rfl, rfl, rfl, rfl⟩

/-- C6 amended: inserting under a name already present in the cache
silently replaces the existing entry (Go map assignment semantics); no
failure is raised. -/
theorem c6_amended_insertReplaces (s : Cache) (k : String) (v w : AvroField)
    (already : lookupSeen s k = some w) :
    lookupSeen (insertSeen s k v) k = some v :=
  lookupSeen_insertSeen_self s k v

/-- Witness for the amended C6 at a concrete occupied cache. -/
theorem c6_amended_insertReplaces_witness :
    lookupSeen (insertSeen [("A", AvroField.nilField)] "A" (.simpleField "x" "long")) "A" =
      some (.simpleField "x" "long") :=
  c6_amended_insertReplaces [("A", .nilField)] "A" (.simpleField "x" "long") .nilField rfl

/-- C7: for a non-repeated enum field whose declaration resolves, the
enum node carries exactly the declared value names in declaration order,
without deduplication. -/
theorem c7_enumSymbols_order {objs : List (String × EnumDescriptor)} {s : Cache}
    {f : FieldDescriptorProto} {ed : EnumDescriptor}
    (hrep : f.isRepeated = false) (htyp : f.typ = .enum)
    (hres : lookupEnum objs f.typeName = some ed) :
    processField objs s f =
      .ok (.enumField f.name (lastDotComponent f.typeName)
        (ed.value.map (fun v => v.name)), s) := by
  have hfold : ∀ (l : List EnumValueDescriptorProto) (acc : List String),
      l.foldl (fun acc v => acc ++ [v.name]) acc = acc ++ l.map (fun v => v.name) := by
    intro l
    induction l with
    | nil => intro acc; simp
    | cons x xs ih => intro acc; simp [ih]
  unfold processField
  rw [hrep]
  simp only [Bool.false_eq_true, if_false]
  rw [htyp]
  unfold getEnumField
  rw [hres]
  simp [hfold]

/-- Witness for C7: symbols `[A, B, C]` come out as `["A", "B", "C"]`
in that order. -/
theorem c7_enumSymbols_order_witness :
    processField [(".p.E", ⟨[⟨"A"⟩, ⟨"B"⟩, ⟨"C"⟩]⟩)] []
        (⟨"st", .enum, ".p.E", false⟩ : FieldDescriptorProto) =
      .ok (.enumField "st" "E" ["A", "B", "C"], []) :=
  @c7_enumSymbols_order [(".p.E", ⟨[⟨"A"⟩, ⟨"B"⟩, ⟨"C"⟩]⟩)] []
    ⟨"st", .enum, ".p.E", false⟩ ⟨[⟨"A"⟩, ⟨"B"⟩, ⟨"C"⟩]⟩ rfl rfl rfl

/-- C8 counterexample: a field name containing a quote is embedded in
the rendered schema verbatim, not escaped — the output differs from the
escaped form the claim requires. -/
theorem c8_counterexample :
    schema (.simpleField "a\"b" "long") =
      some "\x7b\"name\": \"a\"b\", \"type\": \"long\"\x7d" ∧
    schema (.simpleField "a\"b" "long") ≠
      some "\x7b\"name\": \"a\\\"b\", \"type\": \"long\"\x7d" := by
  refine ⟨rfl, ?_⟩
  decide

/-- C8 amended: only enum symbols pass through the quoting function;
field names and type names are embedded verbatim by the fixed templates,
so a quote inside them is not escaped, while a quote inside an enum
symbol is. -/
theorem c8_amended_onlyEnumSymbolsEscaped (nm t fn tn : String) (ss : List String) :
    schema (.simpleField nm t) =
      some ("\x7b\"name\": \"" ++ nm ++ "\", \"type\": \"" ++ t ++ "\"\x7d") ∧
    schema (.enumField fn tn ss) =
      some ("\x7b\"name\": \"" ++ fn ++ "\", \"type\": \x7b\"type\": \"enum\", \"name\": \"" ++
        tn ++ "\", \"symbols\": [ " ++ joinSep ", " (ss.map goQuote) ++ " ]\x7d\x7d") ∧
    goQuote "A\"B" = "\"A\\\"B\"" :=
  ⟨rfl, rfl, rfl⟩

/-- C10: every value ever stored in the cache is an envelope or a
complex field, so the internal-consistency panic branch of
`getComplexField` is unreachable in every run started from the empty
cache of `Init`, whatever the input file holds. -/
theorem c10_cachePanic_unreachable (objs : List (String × EnumDescriptor))
    (nameSpace : String) (msgs : List Descriptor) :
    isCacheConsistencyFailure (generate objs nameSpace msgs []) = false := by
  have h := @generate_shape objs nameSpace msgs []
    (by intro kv hkv; simp at hkv)
  revert h
  cases generate objs nameSpace msgs [] with
  | ok p => intro h; rfl
  | error e =>
      intro h
      cases e with
      | cacheConsistency => exact absurd rfl h
      | unknownFieldType n => rfl
      | enumNotFound n => rfl
      | nilSchemaPanic => rfl

end Avroschema
